import Mathlib

/-!
Verification of the lexer and parser front end in `src/lex.rs`,
`src/parse.rs` and `src/ast.rs` (a Lua-like language front end).

Modelling conventions (shallow embedding):
* The source text is a `List Char`.  The Rust code scans bytes of a UTF-8
  `&str`; on ASCII input the two views agree byte-for-byte, and a non-ASCII
  byte falls into the unknown-operator branch in both views.
* `u32` line counters and `usize` positions are modelled as `Nat`; no claim
  depends on wrap-around behaviour.
* The `i64` payload of `Token::Integer` (`slice.parse::<i64>().unwrap()`)
  and the `f64` payload of `Token::Float` (`slice.parse::<f64>().unwrap()`)
  are modelled by the exact decimal value of the consumed slice, as `Int`
  and `ℚ` respectively.  IEEE rounding of the `f64` value and the panic of
  `unwrap()` on out-of-range or malformed numeric text are not modelled;
  no claim depends on them.
* The `panic!("Unknown operator: ...")` in `lex_operator` is modelled by a
  sentinel token `Token.Unknown` that the parser rejects like any other
  unexpected token, so that every run is a terminating value.
-/

namespace LuaFront

/-- Tokens, after the `Token` enum of `src/lex.rs` (one constructor per Rust
variant, in source order; `Unknown` is the extra sentinel standing for the
`panic!` on an unrecognised operator byte). -/
inductive Token where
  | And | Break | Do | Else | Elseif | End | False | For | Function | Goto
  | If | In | Local | Nil | Not | Or | Repeat | Return | Then | True
  | Until | While
  | Add | Sub | Mul | Div | Mod | Pow | Len | BitAnd | BitXor | BitOr
  | ShiftL | ShiftR | Idiv | Equal | NotEq | LesEq | GreEq | Less | Greater
  | Assign | ParL | ParR | CurlyL | CurlyR | SqurL | SqurR | DoubColon
  | SemiColon | Colon | Comma | Dot | Concat | Dots
  | Name (s : String)
  | String (s : String)
  | Integer (n : Int)
  | Float (q : ℚ)
  | Eof
  | Unknown (c : Char)

/-- Constructor tag of a token: the model of `std::mem::discriminant`,
payload fields ignored. -/
def Token.kind : Token → Nat
  | .And => 0 | .Break => 1 | .Do => 2 | .Else => 3 | .Elseif => 4
  | .End => 5 | .False => 6 | .For => 7 | .Function => 8 | .Goto => 9
  | .If => 10 | .In => 11 | .Local => 12 | .Nil => 13 | .Not => 14
  | .Or => 15 | .Repeat => 16 | .Return => 17 | .Then => 18 | .True => 19
  | .Until => 20 | .While => 21 | .Add => 22 | .Sub => 23 | .Mul => 24
  | .Div => 25 | .Mod => 26 | .Pow => 27 | .Len => 28 | .BitAnd => 29
  | .BitXor => 30 | .BitOr => 31 | .ShiftL => 32 | .ShiftR => 33
  | .Idiv => 34 | .Equal => 35 | .NotEq => 36 | .LesEq => 37 | .GreEq => 38
  | .Less => 39 | .Greater => 40 | .Assign => 41 | .ParL => 42 | .ParR => 43
  | .CurlyL => 44 | .CurlyR => 45 | .SqurL => 46 | .SqurR => 47
  | .DoubColon => 48 | .SemiColon => 49 | .Colon => 50 | .Comma => 51
  | .Dot => 52 | .Concat => 53 | .Dots => 54 | .Name _ => 55
  | .String _ => 56 | .Integer _ => 57 | .Float _ => 58 | .Eof => 59
  | .Unknown _ => 60

/-- Equality test on tokens: the model of `#[derive(PartialEq)]` on the
`Token` enum — payload-sensitive on the payload-carrying variants, plain
discriminant comparison on the rest.  (A hand-rolled instance; the derived
one compiles to a 68 x 68 matcher.) -/
def Token.beq : Token → Token → Bool
  | .Name a, .Name b => a == b
  | .String a, .String b => a == b
  | .Integer a, .Integer b => a == b
  | .Float a, .Float b => a == b
  | .Unknown a, .Unknown b => a == b
  | a, b => a.kind == b.kind

instance : BEq Token := ⟨Token.beq⟩

/-- The lexer state, after `struct Lex` of `src/lex.rs`: the (immutable)
input, the current byte position, the 1-based current line number, and the
position at which the current line starts. -/
structure Lex where
  input : List Char
  pos : Nat
  line_number : Nat
  line_pos_offset : Nat

/-- `Lex::new`: position 0, line 1. -/
def Lex.new (input : List Char) : Lex :=
  { input := input, pos := 0, line_number := 1, line_pos_offset := 0 }

/-- `Lex::line_position`: 1-based column of the current scan position. -/
def Lex.line_position (l : Lex) : Nat :=
  l.pos - l.line_pos_offset + 1

/-- `Lex::next_line`: step over the newline byte, bump the line counter and
reset the column origin. -/
def Lex.next_line (l : Lex) : Lex :=
  { l with pos := l.pos + 1, line_number := l.line_number + 1,
           line_pos_offset := l.pos + 1 }

/-- `Lex::peek_byte`. -/
def Lex.peek_byte (l : Lex) : Option Char :=
  l.input.get? l.pos

/-- Identifier-continuation test used by the loop of `lex_identifier`
(`is_ascii_alphanumeric` or underscore). -/
def isIdentChar (c : Char) : Bool :=
  c.isAlphanum || c = '_'

/-- Length of the maximal identifier-character run, i.e. how far the
`while` loop of `Lex::lex_identifier` advances `pos`. -/
def countIdentChars : List Char → Nat
  | [] => 0
  | c :: cs => if isIdentChar c then countIdentChars cs + 1 else 0

/-- The keyword table of `Lex::lex_identifier` (`src/lex.rs` lines 136-160),
verbatim: note that the source maps the capitalized text `"Until"` — not
lowercase `"until"` — to `Token.Until`. -/
def keywordToken (ident : String) : Token :=
  if ident = "and" then .And
  else if ident = "break" then .Break
  else if ident = "do" then .Do
  else if ident = "else" then .Else
  else if ident = "elseif" then .Elseif
  else if ident = "end" then .End
  else if ident = "false" then .False
  else if ident = "for" then .For
  else if ident = "function" then .Function
  else if ident = "goto" then .Goto
  else if ident = "if" then .If
  else if ident = "in" then .In
  else if ident = "local" then .Local
  else if ident = "nil" then .Nil
  else if ident = "not" then .Not
  else if ident = "or" then .Or
  else if ident = "repeat" then .Repeat
  else if ident = "return" then .Return
  else if ident = "then" then .Then
  else if ident = "true" then .True
  else if ident = "Until" then .Until
  else if ident = "while" then .While
  else .Name ident

/-- `Lex::lex_identifier`: consume the maximal identifier run starting at
`pos` and classify it against the keyword table. -/
def Lex.lex_identifier (l : Lex) : Token × Lex :=
  let n := countIdentChars (l.input.drop l.pos)
  let ident := String.mk ((l.input.drop l.pos).take n)
  (keywordToken ident, { l with pos := l.pos + n })

/-- One pass of the scanning loop of `Lex::lex_number`, as structural
recursion over the remaining input.  `signOk` is true exactly when the
previous character was a just-consumed exponent marker, in which case the
source peeks for (and consumes) a single `+`/`-`; the source performs that
peek inside the same loop iteration, which is re-expressed here as a flag
carried to the next character.  Returns (number of characters consumed,
dot-seen flag, exponent-seen flag). -/
def numScan : List Char → Bool → Bool → Bool → Nat × Bool × Bool
  | [], _, hasDot, hasExp => (0, hasDot, hasExp)
  | c :: cs, signOk, hasDot, hasExp =>
    if signOk && (c = '+' || c = '-') then
      let r := numScan cs false hasDot hasExp
      (r.1 + 1, r.2)
    else if c.isDigit then
      let r := numScan cs false hasDot hasExp
      (r.1 + 1, r.2)
    else if c = '.' && !hasDot && !hasExp then
      let r := numScan cs false true hasExp
      (r.1 + 1, r.2)
    else if (c = 'e' || c = 'E') && !hasExp then
      let r := numScan cs true hasDot true
      (r.1 + 1, r.2)
    else (0, hasDot, hasExp)

/-- Value of an all-digit run, most significant digit first (the exact
semantics of `str::parse` on an unsigned decimal string). -/
def digitsVal (cs : List Char) : Nat :=
  cs.foldl (fun a c => 10 * a + (c.toNat - 48)) 0

/-- Exponent suffix of a decimal literal: an optional sign followed by
digits, scaling a mantissa of value `m / 10 ^ k` by the corresponding
power of ten (the rational is assembled with `mkRat` so that everything
computes in `Nat`/`Int`). -/
def applyExp (m k : Nat) (t : List Char) : ℚ :=
  match t with
  | '+' :: t2 => mkRat (m * 10 ^ digitsVal t2) (10 ^ k)
  | '-' :: t2 => mkRat m (10 ^ k * 10 ^ digitsVal t2)
  | _ => mkRat (m * 10 ^ digitsVal t) (10 ^ k)

/-- Exact decimal value of a floating literal slice (digits, optional `.`
digits, optional `e`/`E` optional-sign digits): the model of
`slice.parse::<f64>().unwrap()` in `Lex::lex_number`, with the value kept
exact in `ℚ` instead of rounded to the nearest `f64`. -/
def floatVal (cs : List Char) : ℚ :=
  let ip := cs.takeWhile Char.isDigit
  let r1 := cs.dropWhile Char.isDigit
  let fp := match r1 with
    | '.' :: t => t.takeWhile Char.isDigit
    | _ => []
  let r2 := match r1 with
    | '.' :: t => t.dropWhile Char.isDigit
    | _ => r1
  let m := digitsVal ip * 10 ^ fp.length + digitsVal fp
  match r2 with
  | 'e' :: t => applyExp m fp.length t
  | 'E' :: t => applyExp m fp.length t
  | _ => mkRat m (10 ^ fp.length)

/-- `Lex::lex_number`: scan the literal, then classify — a dot or exponent
marker anywhere in the consumed slice makes it a `Float`, otherwise it is
an `Integer`. -/
def Lex.lex_number (l : Lex) : Token × Lex :=
  let rest := l.input.drop l.pos
  let r := numScan rest false false false
  let slice := rest.take r.1
  let tok := if r.2.1 || r.2.2 then Token.Float (floatVal slice)
             else Token.Integer (digitsVal slice)
  (tok, { l with pos := l.pos + r.1 })

/-- Length of the string-literal body: how far the `while` loop of
`Lex::lex_string` scans (up to the closing quote or the end of input). -/
def countStrChars : List Char → Nat
  | [] => 0
  | c :: cs => if c = '"' then 0 else countStrChars cs + 1

/-- `Lex::lex_string`: skip the opening quote, take every character up to
the closing quote (or the end of input), and step past the closing quote
(the final `pos += 1` happens even when the input ended first). -/
def Lex.lex_string (l : Lex) : String × Lex :=
  let body := l.input.drop (l.pos + 1)
  let n := countStrChars body
  (String.mk (body.take n), { l with pos := l.pos + 1 + n + 1 })

/-- `Lex::lex_operator` (`src/lex.rs` lines 163-246), with its bounded
one-character lookahead for `// == ~= .. ... <= >= ::`.  Note the source
maps `'^'` to `Token::BitXor` (line 226), not to `Token::Pow`, and has no
arm for `'%'`; the final arm is the `panic!`, modelled as `Token.Unknown`. -/
def Lex.lex_operator (l : Lex) : Token × Lex :=
  match l.peek_byte with
  | none => (Token.Eof, l)
  | some b =>
    let l1 : Lex := { l with pos := l.pos + 1 }
    match b with
    | '+' => (Token.Add, l1)
    | '-' => (Token.Sub, l1)
    | '*' => (Token.Mul, l1)
    | '/' =>
      if l1.peek_byte = some '/' then (Token.Idiv, { l1 with pos := l1.pos + 1 })
      else (Token.Div, l1)
    | '=' =>
      if l1.peek_byte = some '=' then (Token.Equal, { l1 with pos := l1.pos + 1 })
      else (Token.Assign, l1)
    | '~' =>
      if l1.peek_byte = some '=' then (Token.NotEq, { l1 with pos := l1.pos + 1 })
      else (Token.BitXor, l1)
    | '.' =>
      if l1.peek_byte = some '.' then
        let l2 : Lex := { l1 with pos := l1.pos + 1 }
        if l2.peek_byte = some '.' then (Token.Dots, { l2 with pos := l2.pos + 1 })
        else (Token.Concat, l2)
      else (Token.Dot, l1)
    | '<' =>
      if l1.peek_byte = some '=' then (Token.LesEq, { l1 with pos := l1.pos + 1 })
      else (Token.Less, l1)
    | '>' =>
      if l1.peek_byte = some '=' then (Token.GreEq, { l1 with pos := l1.pos + 1 })
      else (Token.Greater, l1)
    | '&' => (Token.BitAnd, l1)
    | '|' => (Token.BitOr, l1)
    | '^' => (Token.BitXor, l1)
    | '#' => (Token.Len, l1)
    | '(' => (Token.ParL, l1)
    | ')' => (Token.ParR, l1)
    | '{' => (Token.CurlyL, l1)
    | '}' => (Token.CurlyR, l1)
    | '[' => (Token.SqurL, l1)
    | ']' => (Token.SqurR, l1)
    | ':' =>
      if l1.peek_byte = some ':' then (Token.DoubColon, { l1 with pos := l1.pos + 1 })
      else (Token.Colon, l1)
    | ';' => (Token.SemiColon, l1)
    | ',' => (Token.Comma, l1)
    | b => (Token.Unknown b, l1)

/-- The dispatch loop of `Lex::next`, as structural recursion over the
remaining input (the list argument is always `l.input.drop l.pos`):
whitespace and newlines are skipped in place, every other byte dispatches
exactly as the `match` in the source. -/
def Lex.nextAux : List Char → Lex → Token × Lex
  | [], l => (Token.Eof, l)
  | c :: cs, l =>
    if c = ' ' || c = '\t' then Lex.nextAux cs { l with pos := l.pos + 1 }
    else if c = '\r' || c = '\n' then Lex.nextAux cs l.next_line
    else if c.isAlpha || c = '_' then l.lex_identifier
    else if c.isDigit then l.lex_number
    else if c = '"' then
      let r := l.lex_string
      (Token.String r.1, r.2)
    else l.lex_operator

/-- `Lex::next`: skip whitespace, then produce one token (or `Eof` at the
end of the input). -/
def Lex.next (l : Lex) : Token × Lex :=
  Lex.nextAux (l.input.drop l.pos) l

/-- Run the lexer to `Eof`, collecting the produced tokens (the `Eof`
sentinel excluded); `fuel` bounds the number of tokens and
`input.length + 1` always suffices. -/
def tokensAux : Nat → Lex → List Token
  | 0, _ => []
  | fuel + 1, l =>
    match l.next with
    | (Token.Eof, _) => []
    | (t, l2) => t :: tokensAux fuel l2

/-- Token stream of a whole string. -/
def tokensOf (s : String) : List Token :=
  tokensAux (s.data.length + 1) (Lex.new s.data)

/-- Line span of an AST node, after `struct Span` of `src/ast.rs` (the
second field is called `end` in the source, a reserved word here). -/
structure Span where
  start : Nat
  stop : Nat

/-- Unary operators of `src/ast.rs`. -/
inductive UnaryOpr where
  | Not | Minus | Length | NoUnary

/-- Binary operators of `src/ast.rs`. -/
inductive BinaryOpr where
  | Add | Sub | Mul | Div | Mod | Pow | Concat
  | Eq | NE | LT | LE | GT | GE | And | Or | NoBinary

/-- Parameter list, after `struct ParList` of `src/ast.rs`. -/
structure ParList where
  names : List String
  varargs : Bool

mutual
/-- Expressions, after the `Expr` enum of `src/ast.rs` (every variant, in
source order; `f64` payloads are modelled as exact rationals as in
`Token`). -/
inductive Expr where
  | Nil
  | Bool (b : Bool)
  | Integer (n : Int)
  | Float (q : ℚ)
  | String (s : String)
  | Dots
  | Ident (s : String)
  | UnaryOp (op : UnaryOpr) (e : ExprNode)
  | BinaryOp (op : BinaryOpr) (a : ExprNode) (b : ExprNode)
  | FuncCall (f : ExprNode) (args : List ExprNode)
  | MethodCall (obj : ExprNode) (name : String) (args : List ExprNode)
  | AttrGet (obj : ExprNode) (key : ExprNode)
  | Table (fields : List Field)
  | Function (params : ParList) (body : List StmtNode)

/-- An `Expr` with its `Span` (`struct ExprNode`). -/
inductive ExprNode where
  | mk (expr : Expr) (span : Span)

/-- Table-constructor entry (`struct Field`). -/
inductive Field where
  | mk (key : Option ExprNode) (val : ExprNode)

/-- Statements, after the `Stmt` enum of `src/ast.rs`. -/
inductive Stmt where
  | Break
  | Return (es : List ExprNode)
  | Assign (targets : List ExprNode) (values : List ExprNode)
  | LocalAssign (names : List String) (values : List ExprNode)
  | FuncCall (e : ExprNode)
  | MethodCall (e : ExprNode)
  | DoBlock (body : List StmtNode)
  | If (ite : IfThenElse)
  | While (cond : ExprNode) (body : List StmtNode)
  | Repeat (cond : ExprNode) (body : List StmtNode)
  | NumberFor (f : NumberFor)
  | GenericFor (f : GenericFor)
  | FuncDef (d : FuncDef)
  | MethodDef (d : MethodDef)

/-- A `Stmt` with its `Span` (`struct StmtNode`). -/
inductive StmtNode where
  | mk (stmt : Stmt) (span : Span)

/-- If-then-else data (`struct IfThenElse`). -/
inductive IfThenElse where
  | mk (cond : ExprNode) (then_branch : List StmtNode) (else_branch : List StmtNode)

/-- Numeric for-loop (`struct NumberFor`). -/
inductive NumberFor where
  | mk (var : String) (init : ExprNode) (limit : ExprNode) (step : ExprNode)
      (body : List StmtNode)

/-- Generic for-loop (`struct GenericFor`). -/
inductive GenericFor where
  | mk (names : List String) (exprs : List ExprNode) (body : List StmtNode)

/-- Function definition (`struct FuncDef`). -/
inductive FuncDef where
  | mk (name : ExprNode) (body : ExprNode)

/-- Method definition (`struct MethodDef`). -/
inductive MethodDef where
  | mk (obj : ExprNode) (method : String) (body : ExprNode)
end

/-- The expression stored in an `ExprNode`. -/
def ExprNode.expr : ExprNode → Expr
  | .mk e _ => e

/-- The span stored in an `ExprNode`. -/
def ExprNode.span : ExprNode → Span
  | .mk _ sp => sp

/-- The statement stored in a `StmtNode`. -/
def StmtNode.stmt : StmtNode → Stmt
  | .mk st _ => st

/-- The span stored in a `StmtNode`. -/
def StmtNode.span : StmtNode → Span
  | .mk _ sp => sp

mutual
/-- Every span in the node (its own and those of all nested children)
satisfies start ≤ end. -/
def ExprNode.spansOk : ExprNode → Bool
  | .mk e sp => decide (sp.start ≤ sp.stop) && Expr.childrenSpansOk e

/-- Span well-formedness of all child nodes of an expression. -/
def Expr.childrenSpansOk : Expr → Bool
  | .Nil => true
  | .Bool _ => true
  | .Integer _ => true
  | .Float _ => true
  | .String _ => true
  | .Dots => true
  | .Ident _ => true
  | .UnaryOp _ a => a.spansOk
  | .BinaryOp _ a b => a.spansOk && b.spansOk
  | .FuncCall f args => f.spansOk && exprListSpansOk args
  | .MethodCall o _ args => o.spansOk && exprListSpansOk args
  | .AttrGet o k => o.spansOk && k.spansOk
  | .Table fs => fieldListSpansOk fs
  | .Function _ body => stmtListSpansOk body

/-- Span well-formedness of every expression node in a list. -/
def exprListSpansOk : List ExprNode → Bool
  | [] => true
  | e :: r => e.spansOk && exprListSpansOk r

/-- Span well-formedness of a table field. -/
def Field.spansOk : Field → Bool
  | .mk none v => v.spansOk
  | .mk (some k) v => k.spansOk && v.spansOk

/-- Span well-formedness of every field in a list. -/
def fieldListSpansOk : List Field → Bool
  | [] => true
  | f :: r => f.spansOk && fieldListSpansOk r

/-- Every span in the statement node (its own and those of all nested
children) satisfies start ≤ end. -/
def StmtNode.spansOk : StmtNode → Bool
  | .mk st sp => decide (sp.start ≤ sp.stop) && Stmt.childrenSpansOk st

/-- Span well-formedness of all child nodes of a statement. -/
def Stmt.childrenSpansOk : Stmt → Bool
  | .Break => true
  | .Return es => exprListSpansOk es
  | .Assign ts vs => exprListSpansOk ts && exprListSpansOk vs
  | .LocalAssign _ vs => exprListSpansOk vs
  | .FuncCall e => e.spansOk
  | .MethodCall e => e.spansOk
  | .DoBlock b => stmtListSpansOk b
  | .If (.mk c tb eb) => c.spansOk && stmtListSpansOk tb && stmtListSpansOk eb
  | .While c b => c.spansOk && stmtListSpansOk b
  | .Repeat c b => c.spansOk && stmtListSpansOk b
  | .NumberFor (.mk _ i li st b) => i.spansOk && li.spansOk && st.spansOk && stmtListSpansOk b
  | .GenericFor (.mk _ es b) => exprListSpansOk es && stmtListSpansOk b
  | .FuncDef (.mk n b) => n.spansOk && b.spansOk
  | .MethodDef (.mk o _ b) => o.spansOk && b.spansOk

/-- Span well-formedness of every statement node in a list. -/
def stmtListSpansOk : List StmtNode → Bool
  | [] => true
  | s :: r => s.spansOk && stmtListSpansOk r
end

/-- Parse errors: the structured content of `Error::SyntaxError` in
`src/parse.rs`.  `expected` carries the data of the message formatted in
`Parser::expect` ("Expected {expected}, got {current} at line
{line}:{col}"), `unexpected` the data of the message formatted in the
fallthrough arm of `Parser::expression` ("Unexpected token {got} at line
{line}:{col}"). -/
inductive PError where
  | expected (want : Token) (got : Token) (line : Nat) (col : Nat)
  | unexpected (got : Token) (line : Nat) (col : Nat)

/-- Outcome of a fueled parsing function: the `Result` of `src/parse.rs`
extended with an out-of-fuel marker (which, as proved below, sufficient
fuel never produces). -/
inductive PResult (α : Type) where
  | ok (a : α)
  | err (e : PError)
  | outOfFuel

/-- Parser state, after `struct Parser` of `src/parse.rs`: the lexer plus
the single buffered current token. -/
structure Parser where
  lexer : Lex
  current : Token

/-- `Parser::new`: pull the first token. -/
def Parser.new (lexer : Lex) : Parser :=
  let r := lexer.next
  { lexer := r.2, current := r.1 }

/-- `Parser::advance`: discard `current` and pull the next token. -/
def Parser.advance (p : Parser) : Parser :=
  let r := p.lexer.next
  { lexer := r.2, current := r.1 }

/-- `Parser::expect`: consume the current token when its discriminant
matches the expected token's, otherwise report a syntax error (leaving the
state untouched). -/
def Parser.expect (p : Parser) (expected : Token) : PResult Parser :=
  if p.current.kind = expected.kind then .ok p.advance
  else .err (.expected expected p.current p.lexer.line_number p.lexer.line_position)

/-- Shared tail of `Parser::expression` (`src/parse.rs` lines 132-134):
advance past the token that produced `ex`, then wrap `ex` with the span
running from `start_span` to the line now reached. -/
def retExpr (start_span : Nat) (ex : Expr) (p : Parser) : PResult (ExprNode × Parser) :=
  let p1 := p.advance
  .ok (ExprNode.mk ex ⟨start_span, p1.lexer.line_number⟩, p1)

mutual
/-- `Parser::expression` (`src/parse.rs` lines 79-135), fueled.  Branches
in source order: `False`, `Nil`, `Integer`, `Float`, `Name` (with the
call-argument loop when a `(` follows), parenthesised expression (which
returns without the shared advance), and the unexpected-token error. -/
def expression : Nat → Parser → PResult (ExprNode × Parser)
  | 0, _ => .outOfFuel
  | fuel + 1, p =>
    let start_span := p.lexer.line_number
    match p.current with
    | Token.False => retExpr start_span (Expr.Bool false) p
    | Token.Nil => retExpr start_span Expr.Nil p
    | Token.Integer n => retExpr start_span (Expr.Integer n) p
    | Token.Float q => retExpr start_span (Expr.Float q) p
    | Token.Name s =>
      let p1 := p.advance
      if p1.current == Token.ParL then
        let p2 := p1.advance
        match (if p2.current == Token.ParR then PResult.ok ([], p2) else callArgs fuel p2) with
        | .ok (args, p3) =>
          match p3.expect Token.ParR with
          | .ok p4 =>
            retExpr start_span
              (Expr.FuncCall (ExprNode.mk (Expr.Ident s) ⟨start_span, p4.lexer.line_number⟩)
                args) p4
          | .err e => .err e
          | .outOfFuel => .outOfFuel
        | .err e => .err e
        | .outOfFuel => .outOfFuel
      else retExpr start_span (Expr.Ident s) p1
    | Token.ParL =>
      let p1 := p.advance
      match expression fuel p1 with
      | .ok (inner, p2) =>
        match p2.expect Token.ParR with
        | .ok p3 => .ok (inner, p3)
        | .err e => .err e
        | .outOfFuel => .outOfFuel
      | .err e => .err e
      | .outOfFuel => .outOfFuel
    | t => .err (.unexpected t p.lexer.line_number p.lexer.line_position)

/-- The call-argument loop inside `Parser::expression` (`src/parse.rs`
lines 95-102): parse one expression, then continue while a comma follows.
Entered only when the argument list is non-empty. -/
def callArgs : Nat → Parser → PResult (List ExprNode × Parser)
  | 0, _ => .outOfFuel
  | fuel + 1, p =>
    match expression fuel p with
    | .ok (e, p1) =>
      if p1.current == Token.Comma then
        match callArgs fuel p1.advance with
        | .ok (rest, p2) => .ok (e :: rest, p2)
        | .err er => .err er
        | .outOfFuel => .outOfFuel
      else .ok ([e], p1)
    | .err er => .err er
    | .outOfFuel => .outOfFuel
end

/-- `Parser::statement` (`src/parse.rs` lines 50-77): `break` is handled
directly; every other token goes through `expression`, whose result is
classified — a call expression becomes a call statement, anything else the
`Assign(vec![expr], vec![])` fallback of line 70. -/
def statement : Nat → Parser → PResult (StmtNode × Parser)
  | 0, _ => .outOfFuel
  | fuel + 1, p =>
    let start_span := p.lexer.line_number
    match p.current with
    | Token.Break =>
      let p1 := p.advance
      .ok (StmtNode.mk Stmt.Break ⟨start_span, p1.lexer.line_number⟩, p1)
    | _ =>
      match expression fuel p with
      | .ok (e, p1) =>
        let st := match e.expr with
          | Expr.FuncCall _ _ => Stmt.FuncCall e
          | Expr.MethodCall _ _ _ => Stmt.MethodCall e
          | _ => Stmt.Assign [e] []
        .ok (StmtNode.mk st ⟨start_span, p1.lexer.line_number⟩, p1)
      | .err er => .err er
      | .outOfFuel => .outOfFuel

/-- `Parser::parse` (`src/parse.rs` lines 42-48): parse statements until
`Eof`, propagating the first error. -/
def parseLoop : Nat → Parser → PResult (List StmtNode)
  | 0, _ => .outOfFuel
  | fuel + 1, p =>
    if p.current == Token.Eof then .ok []
    else
      match statement fuel p with
      | .ok (s, p1) =>
        match parseLoop fuel p1 with
        | .ok rest => .ok (s :: rest)
        | .err er => .err er
        | .outOfFuel => .outOfFuel
      | .err er => .err er
      | .outOfFuel => .outOfFuel

/-- Fuel that always suffices for `parseLoop` (proved below). -/
def parseFuel (s : String) : Nat :=
  s.data.length + 4

/-- Parse a whole string: build the lexer and parser as `main.rs` does and
run `Parser::parse`. -/
def parseStr (s : String) : PResult (List StmtNode) :=
  parseLoop (parseFuel s) (Parser.new (Lex.new s.data))

/-- Unfolding lemma for `==` on tokens. -/
lemma tokenBeq_def (a b : Token) : (a == b) = Token.beq a b := rfl

/-- A token tests `==`-equal to `Eof` exactly when it is `Eof`. -/
lemma token_beq_eof_iff (t : Token) : ((t == Token.Eof) = true) ↔ t = Token.Eof := by
  cases t <;> simp [tokenBeq_def, Token.beq, Token.kind]

/-- A token that tests `==`-equal to `ParL` is `ParL`. -/
lemma eq_parL_of_beq {t : Token} (h : (t == Token.ParL) = true) : t = Token.ParL := by
  cases t <;> simp_all [tokenBeq_def, Token.beq, Token.kind]

/-- A token that tests `==`-equal to `Comma` is `Comma`. -/
lemma eq_comma_of_beq {t : Token} (h : (t == Token.Comma) = true) : t = Token.Comma := by
  cases t <;> simp_all [tokenBeq_def, Token.beq, Token.kind]

/-- Remaining-input measure of a parser state. -/
def parserMeasure (p : Parser) : Nat :=
  p.lexer.input.length - p.lexer.pos + (if p.current == Token.Eof then 0 else 1)

/-- C1: `"foo(1, 2)"` does parse to a single `Stmt.FuncCall` statement, but
`"x = 1"` does **not** parse to a `Stmt.Assign` with one target and one
value: `Parser::statement` never looks at the `=` sign (its assignment arm
is the `Assign(vec![expr], vec![])` fallback of `src/parse.rs` line 70, and
`expression` silently skips one following token), so the parse yields two
statements, each an `Assign` with one target and an **empty** value list. -/
theorem stmt_classification_defect :
    parseStr "foo(1, 2)" =
      .ok [StmtNode.mk
        (Stmt.FuncCall (ExprNode.mk
          (Expr.FuncCall (ExprNode.mk (Expr.Ident "foo") ⟨1, 1⟩)
            [ExprNode.mk (Expr.Integer 1) ⟨1, 1⟩, ExprNode.mk (Expr.Integer 2) ⟨1, 1⟩])
          ⟨1, 1⟩))
        ⟨1, 1⟩]
    ∧ parseStr "x = 1" =
      .ok [StmtNode.mk (Stmt.Assign [ExprNode.mk (Expr.Ident "x") ⟨1, 1⟩] []) ⟨1, 1⟩,
           StmtNode.mk (Stmt.Assign [ExprNode.mk (Expr.Integer 1) ⟨1, 1⟩] []) ⟨1, 1⟩] :=
  ⟨rfl, rfl⟩

/-- C2: every lowercase keyword of the fixed table lexes to its dedicated
token — except `until`: the table of `Lex::lex_identifier` (line 157 of
`src/lex.rs`) spells its key `"Until"`, so the lowercase text `until`
lexes to `Token.Name "until"`, not to `Token.Until` (which the capitalized
text `Until` produces instead). -/
theorem keyword_table_until_defect :
    tokensOf "and" = [Token.And] ∧ tokensOf "break" = [Token.Break]
    ∧ tokensOf "do" = [Token.Do] ∧ tokensOf "else" = [Token.Else]
    ∧ tokensOf "elseif" = [Token.Elseif] ∧ tokensOf "end" = [Token.End]
    ∧ tokensOf "false" = [Token.False] ∧ tokensOf "for" = [Token.For]
    ∧ tokensOf "function" = [Token.Function] ∧ tokensOf "goto" = [Token.Goto]
    ∧ tokensOf "if" = [Token.If] ∧ tokensOf "in" = [Token.In]
    ∧ tokensOf "local" = [Token.Local] ∧ tokensOf "nil" = [Token.Nil]
    ∧ tokensOf "not" = [Token.Not] ∧ tokensOf "or" = [Token.Or]
    ∧ tokensOf "repeat" = [Token.Repeat] ∧ tokensOf "return" = [Token.Return]
    ∧ tokensOf "then" = [Token.Then] ∧ tokensOf "true" = [Token.True]
    ∧ tokensOf "while" = [Token.While]
    ∧ tokensOf "until" = [Token.Name "until"]
    ∧ tokensOf "until" ≠ [Token.Until]
    ∧ tokensOf "Until" = [Token.Until] := by
  refine ⟨rfl, rfl, rfl, rfl, rfl, rfl, rfl, rfl, rfl, rfl, rfl, rfl, rfl, rfl, rfl, rfl,
    rfl, rfl, rfl, rfl, rfl, rfl, ?_, rfl⟩
  rw [show tokensOf "until" = [Token.Name "until"] from rfl]
  simp

/-- C3: parsing `"if x then"` fails fast with a syntax error and no AST —
but the error is not "`end` expected": the `if`-statement arm of
`Parser::statement` is commented out (`src/parse.rs` line 54), so the `if`
token falls through to `Parser::expression`, which rejects it immediately
as an unexpected token at line 1, column 3 (the scan position just after
`if`), before any `end` could be required. -/
theorem if_without_end_error :
    parseStr "if x then" = .err (PError.unexpected Token.If 1 3) :=
  rfl

/-- C5: lexing `^` does **not** yield the power token: `Lex::lex_operator`
(line 226 of `src/lex.rs`) maps `'^'` to `Token.BitXor` — the same token a
lone `~` produces — while `Token.Pow` (documented as `^` in the `Token`
enum) is never emitted by the lexer. -/
theorem caret_lexes_to_bitxor_defect :
    tokensOf "^" = [Token.BitXor]
    ∧ tokensOf "~" = [Token.BitXor]
    ∧ tokensOf "^" ≠ [Token.Pow]
    ∧ tokensOf "^" = tokensOf "~" := by
  refine ⟨rfl, rfl, ?_, rfl⟩
  rw [show tokensOf "^" = [Token.BitXor] from rfl]
  simp

/-- C6: multi-character operator lexing is greedy: `==` is one `Equal`
token (never two `Assign`s), `...` is one `Dots` token (never `Dot`s or
`Concat`-`Dot`), and `//` is one `Idiv` token (never two `Div`s). -/
theorem greedy_multichar_operators :
    tokensOf "==" = [Token.Equal]
    ∧ tokensOf "==" ≠ [Token.Assign, Token.Assign]
    ∧ tokensOf "..." = [Token.Dots]
    ∧ tokensOf "..." ≠ [Token.Dot, Token.Dot, Token.Dot]
    ∧ tokensOf "..." ≠ [Token.Concat, Token.Dot]
    ∧ tokensOf "//" = [Token.Idiv]
    ∧ tokensOf "//" ≠ [Token.Div, Token.Div] := by
  refine ⟨rfl, ?_, rfl, ?_, ?_, rfl, ?_⟩
  · rw [show tokensOf "==" = [Token.Equal] from rfl]
    simp
  · rw [show tokensOf "..." = [Token.Dots] from rfl]
    simp
  · rw [show tokensOf "..." = [Token.Dots] from rfl]
    simp
  · rw [show tokensOf "//" = [Token.Idiv] from rfl]
    simp

/-- The dot-seen flag returned by `numScan` is set exactly when the initial
flag was set or the consumed slice contains a `'.'`. -/
lemma numScan_dot_iff : ∀ (cs : List Char) (so d e : Bool),
    ((numScan cs so d e).2.1 = true) ↔ (d = true ∨ '.' ∈ cs.take (numScan cs so d e).1) := by
  intro cs
  induction cs with
  | nil => intro so d e; simp [numScan]
  | cons c cs ih =>
    intro so d e
    simp only [numScan]
    split_ifs with h1 h2 h3 h4
    · have hne : c ≠ '.' := by
        rcases Bool.and_eq_true_iff.mp h1 with ⟨-, h⟩
        rcases Bool.or_eq_true_iff.mp h with h | h <;>
          · have := of_decide_eq_true h; subst this; decide
      simp only [List.take_succ_cons, List.mem_cons]
      rw [ih]
      constructor
      · rintro (h | h)
        · exact Or.inl h
        · exact Or.inr (Or.inr h)
      · rintro (h | h | h)
        · exact Or.inl h
        · exact absurd h.symm hne
        · exact Or.inr h
    · have hne : c ≠ '.' := by intro hh; subst hh; simp at h2
      simp only [List.take_succ_cons, List.mem_cons]
      rw [ih]
      constructor
      · rintro (h | h)
        · exact Or.inl h
        · exact Or.inr (Or.inr h)
      · rintro (h | h | h)
        · exact Or.inl h
        · exact absurd h.symm hne
        · exact Or.inr h
    · have hc : c = '.' := by
        rcases Bool.and_eq_true_iff.mp h3 with ⟨h, -⟩
        rcases Bool.and_eq_true_iff.mp h with ⟨h, -⟩
        exact of_decide_eq_true h
      subst hc
      simp only [List.take_succ_cons, List.mem_cons]
      rw [ih]
      simp
    · have hne : c ≠ '.' := by
        rcases Bool.and_eq_true_iff.mp h4 with ⟨h, -⟩
        rcases Bool.or_eq_true_iff.mp h with h | h <;>
          · have := of_decide_eq_true h; subst this; decide
      simp only [List.take_succ_cons, List.mem_cons]
      rw [ih]
      constructor
      · rintro (h | h)
        · exact Or.inl h
        · exact Or.inr (Or.inr h)
      · rintro (h | h | h)
        · exact Or.inl h
        · exact absurd h.symm hne
        · exact Or.inr h
    · simp

/-- The exponent-seen flag returned by `numScan` is set exactly when the
initial flag was set or the consumed slice contains an `'e'` or `'E'`. -/
lemma numScan_exp_iff : ∀ (cs : List Char) (so d e : Bool),
    ((numScan cs so d e).2.2 = true) ↔
      (e = true ∨ 'e' ∈ cs.take (numScan cs so d e).1 ∨ 'E' ∈ cs.take (numScan cs so d e).1) := by
  intro cs
  induction cs with
  | nil => intro so d e; simp [numScan]
  | cons c cs ih =>
    intro so d e
    simp only [numScan]
    split_ifs with h1 h2 h3 h4
    · have hne : c ≠ 'e' ∧ c ≠ 'E' := by
        rcases Bool.and_eq_true_iff.mp h1 with ⟨-, h⟩
        rcases Bool.or_eq_true_iff.mp h with h | h <;>
          · have := of_decide_eq_true h; subst this; decide
      simp only [List.take_succ_cons, List.mem_cons]
      rw [ih]
      constructor
      · rintro (h | h | h)
        · exact Or.inl h
        · exact Or.inr (Or.inl (Or.inr h))
        · exact Or.inr (Or.inr (Or.inr h))
      · rintro (h | (h | h) | (h | h))
        · exact Or.inl h
        · exact absurd h.symm hne.1
        · exact Or.inr (Or.inl h)
        · exact absurd h.symm hne.2
        · exact Or.inr (Or.inr h)
    · have hne : c ≠ 'e' ∧ c ≠ 'E' := by
        constructor <;> · intro hh; subst hh; simp at h2
      simp only [List.take_succ_cons, List.mem_cons]
      rw [ih]
      constructor
      · rintro (h | h | h)
        · exact Or.inl h
        · exact Or.inr (Or.inl (Or.inr h))
        · exact Or.inr (Or.inr (Or.inr h))
      · rintro (h | (h | h) | (h | h))
        · exact Or.inl h
        · exact absurd h.symm hne.1
        · exact Or.inr (Or.inl h)
        · exact absurd h.symm hne.2
        · exact Or.inr (Or.inr h)
    · have hc : c = '.' := by
        rcases Bool.and_eq_true_iff.mp h3 with ⟨h, -⟩
        rcases Bool.and_eq_true_iff.mp h with ⟨h, -⟩
        exact of_decide_eq_true h
      subst hc
      simp only [List.take_succ_cons, List.mem_cons]
      rw [ih]
      constructor
      · rintro (h | h | h)
        · exact Or.inl h
        · exact Or.inr (Or.inl (Or.inr h))
        · exact Or.inr (Or.inr (Or.inr h))
      · rintro (h | (h | h) | (h | h))
        · exact Or.inl h
        · exact absurd h (by decide)
        · exact Or.inr (Or.inl h)
        · exact absurd h (by decide)
        · exact Or.inr (Or.inr h)
    · have hc : c = 'e' ∨ c = 'E' := by
        rcases Bool.and_eq_true_iff.mp h4 with ⟨h, -⟩
        rcases Bool.or_eq_true_iff.mp h with h | h
        · exact Or.inl (of_decide_eq_true h)
        · exact Or.inr (of_decide_eq_true h)
      simp only [List.take_succ_cons, List.mem_cons]
      rw [ih]
      rcases hc with rfl | rfl <;> simp
    · simp

/-- C4: `Lex::lex_number` produces a `Float` token whenever the consumed
slice contains a decimal point or an exponent marker, and an `Integer`
token whenever the slice is all digits; concretely `"123"` lexes to integer
123, `"4.56"` to float 4.56, `"4.57e-3"` to float 0.00457 and `"5e+20"` to
float 5·10^20 (float payloads as exact rationals, see `floatVal`). -/
theorem numeric_classification :
    (∀ l : Lex,
      ((∃ c ∈ (l.input.drop l.pos).take (numScan (l.input.drop l.pos) false false false).1,
          c = '.' ∨ c = 'e' ∨ c = 'E') →
        (l.lex_number).1 = Token.Float
          (floatVal ((l.input.drop l.pos).take (numScan (l.input.drop l.pos) false false false).1)))
      ∧ ((∀ c ∈ (l.input.drop l.pos).take (numScan (l.input.drop l.pos) false false false).1,
          c.isDigit = true) →
        (l.lex_number).1 = Token.Integer
          (digitsVal ((l.input.drop l.pos).take (numScan (l.input.drop l.pos) false false false).1))))
    ∧ tokensOf "123" = [Token.Integer 123]
    ∧ tokensOf "4.56" = [Token.Float (4.56 : ℚ)]
    ∧ tokensOf "4.57e-3" = [Token.Float (0.00457 : ℚ)]
    ∧ tokensOf "5e+20" = [Token.Float (5e20 : ℚ)] := by
  refine ⟨fun l => ⟨?_, ?_⟩, rfl, ?_, ?_, ?_⟩
  · rintro ⟨c, hc, hcc⟩
    have hor : ((numScan (l.input.drop l.pos) false false false).2.1
        || (numScan (l.input.drop l.pos) false false false).2.2) = true := by
      rcases hcc with rfl | rfl | rfl
      · have h := (numScan_dot_iff (l.input.drop l.pos) false false false).mpr (Or.inr hc)
        simp [h]
      · have h := (numScan_exp_iff (l.input.drop l.pos) false false false).mpr
          (Or.inr (Or.inl hc))
        simp [h]
      · have h := (numScan_exp_iff (l.input.drop l.pos) false false false).mpr
          (Or.inr (Or.inr hc))
        simp [h]
    simp [Lex.lex_number, hor]
  · intro hall
    have hdot : (numScan (l.input.drop l.pos) false false false).2.1 = false := by
      cases hh : (numScan (l.input.drop l.pos) false false false).2.1
      · rfl
      · rcases (numScan_dot_iff (l.input.drop l.pos) false false false).mp hh with h | h
        · exact absurd h (by decide)
        · have := hall '.' h
          simp at this
    have hexp : (numScan (l.input.drop l.pos) false false false).2.2 = false := by
      cases hh : (numScan (l.input.drop l.pos) false false false).2.2
      · rfl
      · rcases (numScan_exp_iff (l.input.drop l.pos) false false false).mp hh with h | h | h
        · exact absurd h (by decide)
        · have := hall 'e' h
          simp at this
        · have := hall 'E' h
          simp at this
    simp [Lex.lex_number, hdot, hexp]
  · have h : tokensOf "4.56" = [Token.Float (mkRat 456 100)] := rfl
    rw [h]
    norm_num [Rat.mkRat_eq_div]
  · have h : tokensOf "4.57e-3" = [Token.Float (mkRat 457 100000)] := rfl
    rw [h]
    norm_num [Rat.mkRat_eq_div]
  · have h : tokensOf "5e+20" = [Token.Float (mkRat (5 * 10 ^ 20) 1)] := rfl
    rw [h]
    norm_num [Rat.mkRat_eq_div]

/-- Witness for `numeric_classification`: the float branch at `"4.56"` and
the integer branch at `"123"`. -/
theorem numeric_classification_witness :
    ((Lex.new "4.56".data).lex_number).1 = Token.Float (floatVal "4.56".data)
    ∧ ((Lex.new "123".data).lex_number).1 = Token.Integer (digitsVal "123".data) := by
  constructor
  · exact (numeric_classification.1 (Lex.new "4.56".data)).1 (by decide)
  · exact (numeric_classification.1 (Lex.new "123".data)).2 (by decide)

/-- On quote-free input the string-body scan runs to the end of the input. -/
lemma countStrChars_no_quote : ∀ (s : List Char), '"' ∉ s → countStrChars s = s.length := by
  intro s
  induction s with
  | nil => intro; rfl
  | cons c cs ih =>
    intro h
    have hc : c ≠ '"' := fun hh => h (hh ▸ List.mem_cons_self c cs)
    simp only [countStrChars, List.length_cons, if_neg hc]
    rw [ih (fun hm => h (List.mem_cons_of_mem c hm))]

/-- C10: an unterminated string literal raises no error: the lexer returns
a `String` token whose payload is every character after the opening quote
up to the end of the input (the scan position ends up one past the end),
and the following call to `Lex::next` returns `Eof`. -/
theorem unterminated_string (l : Lex) (s : List Char)
    (h1 : l.input.drop l.pos = '"' :: s) (h2 : '"' ∉ s) :
    l.next = (Token.String (String.mk s), { l with pos := l.pos + 1 + s.length + 1 })
    ∧ ((l.next).2).next.1 = Token.Eof := by
  have hlen : l.pos + 1 + s.length = l.input.length := by
    have hl := congrArg List.length h1
    simp only [List.length_drop, List.length_cons] at hl
    omega
  have hbody : l.input.drop (l.pos + 1) = s := by
    rw [← List.tail_drop, h1]
    rfl
  have hnext : l.next = (Token.String (String.mk s), { l with pos := l.pos + 1 + s.length + 1 }) := by
    unfold Lex.next
    rw [h1]
    unfold Lex.nextAux
    rw [if_neg (by decide), if_neg (by decide), if_neg (by decide), if_neg (by decide),
        if_pos (by decide)]
    unfold Lex.lex_string
    rw [hbody]
    simp only [countStrChars_no_quote s h2, List.take_length]
  refine ⟨hnext, ?_⟩
  rw [hnext]
  simp only [Lex.next]
  have hdrop : l.input.drop (l.pos + 1 + s.length + 1) = [] :=
    List.drop_eq_nil_of_le (by omega)
  rw [hdrop]
  rfl

/-- Witness for `unterminated_string` at the input `"abc` (opening quote,
no closing quote). -/
theorem unterminated_string_witness :
    (Lex.new "\"abc".data).next =
      (Token.String (String.mk "abc".data), { Lex.new "\"abc".data with pos := 5 })
    ∧ (((Lex.new "\"abc".data).next).2).next.1 = Token.Eof :=
  unterminated_string (Lex.new "\"abc".data) "abc".data (by rfl) (by decide)

/-- C8: `Parser::expect` succeeds and consumes the current token exactly
when the current token's discriminant equals the expected one's, payloads
ignored (a `Name` with any text matches `Name("")`, and likewise for
`String`/`Integer`/`Float` payloads); on a discriminant mismatch it
returns the `Expected ..., got ...` syntax error and the parser state is
left unchanged. -/
theorem expect_kind_semantics :
    (∀ (p : Parser) (t : Token),
      (p.expect t = PResult.ok p.advance ↔ p.current.kind = t.kind)
      ∧ (p.current.kind ≠ t.kind →
          p.expect t = PResult.err (PError.expected t p.current
            p.lexer.line_number p.lexer.line_position)))
    ∧ (∀ a b : String, (Token.Name a).kind = (Token.Name b).kind)
    ∧ (∀ a b : String, (Token.String a).kind = (Token.String b).kind)
    ∧ (∀ m n : Int, (Token.Integer m).kind = (Token.Integer n).kind)
    ∧ (∀ q r : ℚ, (Token.Float q).kind = (Token.Float r).kind) := by
  refine ⟨fun p t => ⟨⟨?_, ?_⟩, ?_⟩, fun a b => rfl, fun a b => rfl, fun m n => rfl,
    fun q r => rfl⟩
  · intro h
    by_contra hne
    simp [Parser.expect, hne] at h
  · intro h
    simp [Parser.expect, h]
  · intro h
    simp [Parser.expect, h]

/-- Witness for `expect_kind_semantics`: on `"x = 1"` the parser's current
token is `Name "x"`, so expecting `Name ""` succeeds (payload ignored)
while expecting `End` fails with the located error. -/
theorem expect_kind_semantics_witness :
    (Parser.new (Lex.new "x = 1".data)).expect (Token.Name "") =
      PResult.ok (Parser.new (Lex.new "x = 1".data)).advance
    ∧ (Parser.new (Lex.new "x = 1".data)).expect Token.End =
      PResult.err (PError.expected Token.End (Token.Name "x") 1 2) := by
  constructor
  · exact ((expect_kind_semantics.1 (Parser.new (Lex.new "x = 1".data)) (Token.Name "")).1).mpr
      (by decide)
  · exact (expect_kind_semantics.1 (Parser.new (Lex.new "x = 1".data)) Token.End).2 (by decide)


lemma isIdentChar_of_start (c : Char) (h : (c.isAlpha || c = '_') = true) :
    isIdentChar c = true := by
  rcases Bool.or_eq_true_iff.mp h with h | h
  · simp [isIdentChar, Char.isAlphanum, h]
  · simp [isIdentChar, h]

set_option maxHeartbeats 1600000 in
lemma lex_operator_spec (l : Lex) (c : Char) (h : l.peek_byte = some c) :
    (l.lex_operator).2.input = l.input ∧ l.pos < (l.lex_operator).2.pos
    ∧ (l.lex_operator).2.line_number = l.line_number := by
  unfold Lex.lex_operator
  rw [h]
  dsimp only
  repeat' split
  all_goals exact ⟨rfl, by dsimp only; omega, rfl⟩

lemma nextAux_spec : ∀ (cs : List Char) (l : Lex), cs = l.input.drop l.pos →
    ((Lex.nextAux cs l).2.input = l.input)
    ∧ l.pos ≤ (Lex.nextAux cs l).2.pos
    ∧ l.line_number ≤ (Lex.nextAux cs l).2.line_number
    ∧ ((Lex.nextAux cs l).1 ≠ Token.Eof →
        l.pos < l.input.length ∧ l.pos < (Lex.nextAux cs l).2.pos) := by
  intro cs
  induction cs with
  | nil =>
    intro l h
    exact ⟨rfl, le_refl _, le_refl _, fun hne => absurd rfl hne⟩
  | cons c cs ih =>
    intro l h
    have hposlt : l.pos < l.input.length := by
      by_contra hge
      have hnil : l.input.drop l.pos = [] := List.drop_eq_nil_of_le (by omega)
      rw [hnil] at h
      exact List.noConfusion h
    have hcs : cs = l.input.drop (l.pos + 1) := by
      have ht := congrArg List.tail h
      simpa [List.tail_drop] using ht
    simp only [Lex.nextAux]
    split_ifs with h1 h2 h3 h4 h5
    · -- whitespace
      obtain ⟨hi, hp, hl, hne⟩ := ih { l with pos := l.pos + 1 } (by simpa using hcs)
      dsimp only at hi hp hl hne
      refine ⟨hi, by omega, hl, fun ht => ⟨hposlt, ?_⟩⟩
      have := hne ht
      omega
    · -- newline
      obtain ⟨hi, hp, hl, hne⟩ := ih l.next_line (by simpa [Lex.next_line] using hcs)
      simp only [Lex.next_line] at hi hp hl hne ⊢
      refine ⟨hi, by omega, by omega, fun ht => ⟨hposlt, ?_⟩⟩
      have := hne ht
      omega
    · -- identifier
      have hident : isIdentChar c = true := isIdentChar_of_start c h3
      have hcount : countIdentChars (l.input.drop l.pos) = countIdentChars cs + 1 := by
        rw [← h]
        simp [countIdentChars, hident]
      refine ⟨rfl, ?_, le_refl _, fun ht => ⟨hposlt, ?_⟩⟩
      · simp only [Lex.lex_identifier]
        omega
      · simp only [Lex.lex_identifier, hcount]
        omega
    · -- number
      have hcount : (numScan (l.input.drop l.pos) false false false).1 =
          (numScan cs false false false).1 + 1 := by
        rw [← h]
        simp [numScan, h4]
      refine ⟨rfl, ?_, le_refl _, fun ht => ⟨hposlt, ?_⟩⟩
      · simp only [Lex.lex_number]
        omega
      · simp only [Lex.lex_number, hcount]
        omega
    · -- string
      refine ⟨rfl, ?_, le_refl _, fun ht => ⟨hposlt, ?_⟩⟩
      · simp only [Lex.lex_string]
        omega
      · simp only [Lex.lex_string]
        omega
    · -- operator
      have hpk : l.peek_byte = some c := by
        have h0 := List.get?_drop l.input l.pos 0
        rw [← h] at h0
        simpa [Lex.peek_byte] using h0.symm
      obtain ⟨hi, hp, hl⟩ := lex_operator_spec l c hpk
      exact ⟨hi, le_of_lt hp, le_of_eq hl.symm, fun ht => ⟨hposlt, hp⟩⟩

lemma next_spec (l : Lex) :
    ((l.next).2.input = l.input)
    ∧ l.pos ≤ (l.next).2.pos
    ∧ l.line_number ≤ (l.next).2.line_number
    ∧ ((l.next).1 ≠ Token.Eof → l.pos < l.input.length ∧ l.pos < (l.next).2.pos) :=
  nextAux_spec (l.input.drop l.pos) l rfl



lemma advance_input (p : Parser) : p.advance.lexer.input = p.lexer.input :=
  (next_spec p.lexer).1

lemma parserMeasure_advance_le (p : Parser) : parserMeasure p.advance ≤ parserMeasure p := by
  obtain ⟨hi, hp, hl, hne⟩ := next_spec p.lexer
  unfold parserMeasure Parser.advance
  dsimp only
  rw [hi]
  by_cases he : ((p.lexer.next).1 == Token.Eof) = true
  · rw [if_pos he]
    split_ifs <;> omega
  · rw [if_neg he]
    obtain ⟨hlt, hgt⟩ := hne fun hh => he ((token_beq_eof_iff _).mpr hh)
    split_ifs <;> omega

lemma parserMeasure_advance_lt (p : Parser) (h : p.current ≠ Token.Eof) :
    parserMeasure p.advance < parserMeasure p := by
  obtain ⟨hi, hp, hl, hne⟩ := next_spec p.lexer
  unfold parserMeasure Parser.advance
  dsimp only
  rw [hi, if_neg fun hh => h ((token_beq_eof_iff _).mp hh)]
  by_cases he : ((p.lexer.next).1 == Token.Eof) = true
  · rw [if_pos he]
    omega
  · rw [if_neg he]
    obtain ⟨hlt, hgt⟩ := hne fun hh => he ((token_beq_eof_iff _).mpr hh)
    omega

lemma retExpr_ok {start : Nat} {ex : Expr} {p : Parser} {e : ExprNode} {p' : Parser}
    (h : retExpr start ex p = .ok (e, p')) : p' = p.advance := by
  simp only [retExpr, PResult.ok.injEq, Prod.mk.injEq] at h
  exact h.2.symm

lemma retExpr_ne_oof (start : Nat) (ex : Expr) (p : Parser) :
    retExpr start ex p ≠ PResult.outOfFuel := by
  simp [retExpr]

lemma expect_ok {p : Parser} {t : Token} {p' : Parser} (h : p.expect t = .ok p') :
    p' = p.advance := by
  unfold Parser.expect at h
  split_ifs at h
  · simp only [PResult.ok.injEq] at h
    exact h.symm

lemma expect_ne_oof (p : Parser) (t : Token) : p.expect t ≠ PResult.outOfFuel := by
  unfold Parser.expect
  split_ifs <;> simp



lemma expr_args_measure : ∀ fuel : Nat,
    (∀ p e p', expression fuel p = .ok (e, p') → parserMeasure p' < parserMeasure p)
    ∧ (∀ p a p', callArgs fuel p = .ok (a, p') → parserMeasure p' < parserMeasure p) := by
  intro fuel
  induction fuel with
  | zero =>
    constructor
    · intro p e p' h
      simp [expression] at h
    · intro p a p' h
      simp [callArgs] at h
  | succ fuel ih =>
    constructor
    · intro p e p' hok
      simp only [expression] at hok
      split at hok
      · -- False
        rw [retExpr_ok hok]
        exact parserMeasure_advance_lt p (by simp_all)
      · -- Nil
        rw [retExpr_ok hok]
        exact parserMeasure_advance_lt p (by simp_all)
      · -- Integer
        rw [retExpr_ok hok]
        exact parserMeasure_advance_lt p (by simp_all)
      · -- Float
        rw [retExpr_ok hok]
        exact parserMeasure_advance_lt p (by simp_all)
      · -- Name
        rename_i s hname
        have hlt1 : parserMeasure p.advance < parserMeasure p :=
          parserMeasure_advance_lt p (by simp_all)
        split at hok
        · -- a ParL follows
          rename_i hpl
          have hlt2 : parserMeasure p.advance.advance < parserMeasure p.advance :=
            parserMeasure_advance_lt p.advance (by rw [eq_parL_of_beq hpl]; simp)
          split at hok
          · -- argument list ok
            rename_i args p3 hargs
            have hm3 : parserMeasure p3 ≤ parserMeasure p.advance.advance := by
              split at hargs
              · simp only [PResult.ok.injEq, Prod.mk.injEq] at hargs
                rw [← hargs.2]
              · exact le_of_lt (ih.2 _ _ _ hargs)
            split at hok
            · -- expect ParR ok
              rename_i p4 hexp
              rw [retExpr_ok hok, expect_ok hexp]
              calc parserMeasure p3.advance.advance
                  ≤ parserMeasure p3.advance := parserMeasure_advance_le p3.advance
                _ ≤ parserMeasure p3 := parserMeasure_advance_le p3
                _ ≤ parserMeasure p.advance.advance := hm3
                _ < parserMeasure p.advance := hlt2
                _ < parserMeasure p := hlt1
            · exact absurd hok (by simp)
            · exact absurd hok (by simp)
          · exact absurd hok (by simp)
          · exact absurd hok (by simp)
        · -- plain identifier
          rw [retExpr_ok hok]
          calc parserMeasure p.advance.advance ≤ parserMeasure p.advance :=
              parserMeasure_advance_le p.advance
            _ < parserMeasure p := hlt1
      · -- ParL
        rename_i hparl
        have hlt1 : parserMeasure p.advance < parserMeasure p :=
          parserMeasure_advance_lt p (by simp_all)
        split at hok
        · rename_i inner p2 hinner
          split at hok
          · rename_i p3 hexp
            simp only [PResult.ok.injEq, Prod.mk.injEq] at hok
            rw [← hok.2, expect_ok hexp]
            calc parserMeasure p2.advance ≤ parserMeasure p2 := parserMeasure_advance_le p2
              _ < parserMeasure p.advance := ih.1 _ _ _ hinner
              _ < parserMeasure p := hlt1
          · exact absurd hok (by simp)
          · exact absurd hok (by simp)
        · exact absurd hok (by simp)
        · exact absurd hok (by simp)
      · -- unexpected token
        exact absurd hok (by simp)
    · intro p a p' hok
      simp only [callArgs] at hok
      split at hok
      · rename_i e1 p1 hexpr
        have hlt1 : parserMeasure p1 < parserMeasure p := ih.1 _ _ _ hexpr
        split at hok
        · -- comma: recurse
          rename_i hcomma
          split at hok
          · rename_i rest p2 hrest
            simp only [PResult.ok.injEq, Prod.mk.injEq] at hok
            rw [← hok.2]
            calc parserMeasure p2 < parserMeasure p1.advance := ih.2 _ _ _ hrest
              _ ≤ parserMeasure p1 := parserMeasure_advance_le p1
              _ < parserMeasure p := hlt1
          · exact absurd hok (by simp)
          · exact absurd hok (by simp)
        · -- no comma
          simp only [PResult.ok.injEq, Prod.mk.injEq] at hok
          rw [← hok.2]
          exact hlt1
      · exact absurd hok (by simp)
      · exact absurd hok (by simp)



lemma expr_args_sufficient : ∀ fuel : Nat,
    (∀ p : Parser, parserMeasure p + 1 ≤ fuel → expression fuel p ≠ .outOfFuel)
    ∧ (∀ p : Parser, parserMeasure p + 2 ≤ fuel → callArgs fuel p ≠ .outOfFuel) := by
  intro fuel
  induction fuel with
  | zero =>
    constructor <;> (intro p h; exact absurd h (by omega))
  | succ fuel ih =>
    constructor
    · intro p hfuel
      simp only [expression]
      split
      · exact retExpr_ne_oof _ _ _
      · exact retExpr_ne_oof _ _ _
      · exact retExpr_ne_oof _ _ _
      · exact retExpr_ne_oof _ _ _
      · -- Name
        rename_i s hname
        have hlt1 : parserMeasure p.advance < parserMeasure p :=
          parserMeasure_advance_lt p (by simp_all)
        split
        · -- ParL follows
          rename_i hpl
          have hlt2 : parserMeasure p.advance.advance < parserMeasure p.advance :=
            parserMeasure_advance_lt p.advance (by rw [eq_parL_of_beq hpl]; simp)
          split
          · -- args ok
            rename_i args p3 hargs
            split
            · exact retExpr_ne_oof _ _ _
            · simp
            · rename_i hexp
              exact absurd hexp (expect_ne_oof _ _)
          · simp
          · -- args out of fuel: impossible
            rename_i hargs
            split at hargs
            · exact absurd hargs (by simp)
            · exact absurd hargs (ih.2 p.advance.advance (by omega))
        · exact retExpr_ne_oof _ _ _
      · -- ParL
        rename_i hparl
        have hlt1 : parserMeasure p.advance < parserMeasure p :=
          parserMeasure_advance_lt p (by simp_all)
        split
        · rename_i inner p2 hinner
          split
          · simp
          · simp
          · rename_i hexp
            exact absurd hexp (expect_ne_oof _ _)
        · simp
        · rename_i hinner
          exact absurd hinner (ih.1 p.advance (by omega))
      · simp
    · intro p hfuel
      simp only [callArgs]
      split
      · rename_i e1 p1 hexpr
        have hlt1 : parserMeasure p1 < parserMeasure p := (expr_args_measure fuel).1 _ _ _ hexpr
        split
        · -- comma
          rename_i hcomma
          have hlt2 : parserMeasure p1.advance < parserMeasure p1 :=
            parserMeasure_advance_lt p1 (by rw [eq_comma_of_beq hcomma]; simp)
          split
          · simp
          · simp
          · rename_i hrest
            exact absurd hrest (ih.2 p1.advance (by omega))
        · simp
      · simp
      · rename_i hexpr
        exact absurd hexpr (ih.1 p (by omega))



lemma statement_measure (fuel : Nat) (p : Parser) (st : StmtNode) (p' : Parser)
    (h : statement fuel p = .ok (st, p')) : parserMeasure p' < parserMeasure p := by
  cases fuel with
  | zero => simp [statement] at h
  | succ fuel =>
    simp only [statement] at h
    split at h
    · simp only [PResult.ok.injEq, Prod.mk.injEq] at h
      rw [← h.2]
      exact parserMeasure_advance_lt p (by simp_all)
    · split at h
      · rename_i e1 p1 hexpr
        simp only [PResult.ok.injEq, Prod.mk.injEq] at h
        rw [← h.2]
        exact (expr_args_measure fuel).1 _ _ _ hexpr
      · exact absurd h (by simp)
      · exact absurd h (by simp)

lemma statement_sufficient (fuel : Nat) (p : Parser) (h : parserMeasure p + 2 ≤ fuel) :
    statement fuel p ≠ .outOfFuel := by
  cases fuel with
  | zero => exact absurd h (by omega)
  | succ fuel =>
    simp only [statement]
    split
    · simp
    · split
      · simp
      · simp
      · rename_i hexpr
        exact absurd hexpr ((expr_args_sufficient fuel).1 p (by omega))

lemma parseLoop_sufficient : ∀ (fuel : Nat) (p : Parser), parserMeasure p + 3 ≤ fuel →
    parseLoop fuel p ≠ .outOfFuel := by
  intro fuel
  induction fuel with
  | zero => intro p h; exact absurd h (by omega)
  | succ fuel ih =>
    intro p hfuel
    simp only [parseLoop]
    split_ifs with he
    · simp
    · split
      · rename_i st p1 hst
        split
        · simp
        · simp
        · rename_i hrest
          exact absurd hrest (ih p1 (by
            have := statement_measure fuel p st p1 hst
            omega))
      · simp
      · rename_i hst
        exact absurd hst (statement_sufficient fuel p (by omega))

/-- C9: parsing always terminates, bounded by the input size: `Lex::next`
either returns `Eof` or strictly advances the scan position; each
successful `Parser::statement` call (one iteration of the `parse` loop)
strictly decreases the remaining-input measure, i.e. consumes at least one
token; and consequently running `parse` with fuel `input length + 4`
(`parseStr`) never exhausts its fuel on any input, returning a statement
list or an error after finitely many steps. -/
theorem parse_terminates :
    (∀ l : Lex, (l.next).1 = Token.Eof ∨ l.pos < (l.next).2.pos)
    ∧ (∀ (fuel : Nat) (p : Parser) (st : StmtNode) (p' : Parser),
        statement fuel p = .ok (st, p') → parserMeasure p' < parserMeasure p)
    ∧ (∀ s : String, parseStr s ≠ PResult.outOfFuel) := by
  refine ⟨?_, statement_measure, ?_⟩
  · intro l
    by_cases he : (l.next).1 = Token.Eof
    · exact Or.inl he
    · exact Or.inr ((next_spec l).2.2.2 he).2
  · intro s
    unfold parseStr
    apply parseLoop_sufficient
    have hin : (Parser.new (Lex.new s.data)).lexer.input = s.data :=
      (next_spec (Lex.new s.data)).1
    unfold parserMeasure parseFuel
    rw [hin]
    split_ifs <;> omega

theorem parse_terminates_witness :
    parserMeasure ((Parser.new (Lex.new "break".data)).advance)
      < parserMeasure (Parser.new (Lex.new "break".data)) :=
  parse_terminates.2.1 5 (Parser.new (Lex.new "break".data))
    (StmtNode.mk Stmt.Break ⟨1, 1⟩) ((Parser.new (Lex.new "break".data)).advance) rfl



lemma advance_line_le (p : Parser) : p.lexer.line_number ≤ p.advance.lexer.line_number :=
  (next_spec p.lexer).2.2.1

lemma expr_args_spans : ∀ fuel : Nat,
    (∀ p e p', expression fuel p = .ok (e, p') →
      p.lexer.line_number ≤ p'.lexer.line_number ∧ e.spansOk = true)
    ∧ (∀ p a p', callArgs fuel p = .ok (a, p') →
      p.lexer.line_number ≤ p'.lexer.line_number ∧ exprListSpansOk a = true) := by
  intro fuel
  induction fuel with
  | zero =>
    constructor
    · intro p e p' h
      simp [expression] at h
    · intro p a p' h
      simp [callArgs] at h
  | succ fuel ih =>
    constructor
    · intro p e p' hok
      simp only [expression] at hok
      split at hok
      · simp only [retExpr, PResult.ok.injEq, Prod.mk.injEq] at hok
        obtain ⟨he, hp'⟩ := hok
        subst he; subst hp'
        refine ⟨advance_line_le p, ?_⟩
        simp [ExprNode.spansOk, Expr.childrenSpansOk, advance_line_le p]
      · simp only [retExpr, PResult.ok.injEq, Prod.mk.injEq] at hok
        obtain ⟨he, hp'⟩ := hok
        subst he; subst hp'
        refine ⟨advance_line_le p, ?_⟩
        simp [ExprNode.spansOk, Expr.childrenSpansOk, advance_line_le p]
      · simp only [retExpr, PResult.ok.injEq, Prod.mk.injEq] at hok
        obtain ⟨he, hp'⟩ := hok
        subst he; subst hp'
        refine ⟨advance_line_le p, ?_⟩
        simp [ExprNode.spansOk, Expr.childrenSpansOk, advance_line_le p]
      · simp only [retExpr, PResult.ok.injEq, Prod.mk.injEq] at hok
        obtain ⟨he, hp'⟩ := hok
        subst he; subst hp'
        refine ⟨advance_line_le p, ?_⟩
        simp [ExprNode.spansOk, Expr.childrenSpansOk, advance_line_le p]
      · -- Name
        rename_i s hname
        have hl1 : p.lexer.line_number ≤ p.advance.lexer.line_number := advance_line_le p
        split at hok
        · -- call
          rename_i hpl
          have hl2 : p.advance.lexer.line_number ≤ p.advance.advance.lexer.line_number :=
            advance_line_le p.advance
          split at hok
          · rename_i args p3 hargs
            have hargs3 : p.advance.advance.lexer.line_number ≤ p3.lexer.line_number
                ∧ exprListSpansOk args = true := by
              split at hargs
              · simp only [PResult.ok.injEq, Prod.mk.injEq] at hargs
                obtain ⟨ha, hp3⟩ := hargs
                subst ha; subst hp3
                exact ⟨le_refl _, rfl⟩
              · exact ih.2 _ _ _ hargs
            split at hok
            · rename_i p4 hexp
              have hp4 : p4 = p3.advance := expect_ok hexp
              have hl4 : p3.lexer.line_number ≤ p4.lexer.line_number := by
                rw [hp4]; exact advance_line_le p3
              simp only [retExpr, PResult.ok.injEq, Prod.mk.injEq] at hok
              obtain ⟨he, hp'⟩ := hok
              subst he; subst hp'
              have hl5 : p4.lexer.line_number ≤ p4.advance.lexer.line_number :=
                advance_line_le p4
              refine ⟨by omega, ?_⟩
              simp [ExprNode.spansOk, Expr.childrenSpansOk, hargs3.2]
              constructor
              · omega
              · omega
            · exact absurd hok (by simp)
            · exact absurd hok (by simp)
          · exact absurd hok (by simp)
          · exact absurd hok (by simp)
        · -- plain identifier
          simp only [retExpr, PResult.ok.injEq, Prod.mk.injEq] at hok
          obtain ⟨he, hp'⟩ := hok
          subst he; subst hp'
          have hl2 : p.advance.lexer.line_number ≤ p.advance.advance.lexer.line_number :=
            advance_line_le p.advance
          refine ⟨by omega, ?_⟩
          simp [ExprNode.spansOk, Expr.childrenSpansOk]
          omega
      · -- ParL
        rename_i hparl
        have hl1 : p.lexer.line_number ≤ p.advance.lexer.line_number := advance_line_le p
        split at hok
        · rename_i inner p2 hinner
          obtain ⟨hl2, hsp⟩ := ih.1 _ _ _ hinner
          split at hok
          · rename_i p3 hexp
            have hp3 : p3 = p2.advance := expect_ok hexp
            simp only [PResult.ok.injEq, Prod.mk.injEq] at hok
            obtain ⟨he, hp'⟩ := hok
            subst he; subst hp'
            have hl3 : p2.lexer.line_number ≤ p2.advance.lexer.line_number :=
              advance_line_le p2
            rw [hp3]
            exact ⟨by omega, hsp⟩
          · exact absurd hok (by simp)
          · exact absurd hok (by simp)
        · exact absurd hok (by simp)
        · exact absurd hok (by simp)
      · exact absurd hok (by simp)
    · intro p a p' hok
      simp only [callArgs] at hok
      split at hok
      · rename_i e1 p1 hexpr
        obtain ⟨hl1, hsp1⟩ := ih.1 _ _ _ hexpr
        split at hok
        · rename_i hcomma
          split at hok
          · rename_i rest p2 hrest
            obtain ⟨hl2, hsp2⟩ := ih.2 _ _ _ hrest
            have hl3 : p1.lexer.line_number ≤ p1.advance.lexer.line_number :=
              advance_line_le p1
            simp only [PResult.ok.injEq, Prod.mk.injEq] at hok
            obtain ⟨ha, hp'⟩ := hok
            subst ha; subst hp'
            exact ⟨by omega, by simp [exprListSpansOk, hsp1, hsp2]⟩
          · exact absurd hok (by simp)
          · exact absurd hok (by simp)
        · simp only [PResult.ok.injEq, Prod.mk.injEq] at hok
          obtain ⟨ha, hp'⟩ := hok
          subst ha; subst hp'
          exact ⟨hl1, by simp [exprListSpansOk, hsp1]⟩
      · exact absurd hok (by simp)
      · exact absurd hok (by simp)



lemma statement_spans (fuel : Nat) (p : Parser) (st : StmtNode) (p' : Parser)
    (h : statement fuel p = .ok (st, p')) : StmtNode.spansOk st = true := by
  cases fuel with
  | zero => simp [statement] at h
  | succ fuel =>
    simp only [statement] at h
    split at h
    · simp only [PResult.ok.injEq, Prod.mk.injEq] at h
      obtain ⟨hs, hp'⟩ := h
      subst hs
      have := advance_line_le p
      simp [StmtNode.spansOk, Stmt.childrenSpansOk]
      omega
    · split at h
      · rename_i e1 p1 hexpr
        obtain ⟨hl, hsp⟩ := (expr_args_spans fuel).1 _ _ _ hexpr
        simp only [PResult.ok.injEq, Prod.mk.injEq] at h
        obtain ⟨hs, hp'⟩ := h
        subst hs
        split
        · simp [StmtNode.spansOk, Stmt.childrenSpansOk, hsp]
          omega
        · simp [StmtNode.spansOk, Stmt.childrenSpansOk, hsp]
          omega
        · simp [StmtNode.spansOk, Stmt.childrenSpansOk, exprListSpansOk, hsp]
          omega
      · exact absurd h (by simp)
      · exact absurd h (by simp)

lemma parseLoop_spans : ∀ (fuel : Nat) (p : Parser) (stmts : List StmtNode),
    parseLoop fuel p = .ok stmts → stmtListSpansOk stmts = true := by
  intro fuel
  induction fuel with
  | zero =>
    intro p stmts h
    simp [parseLoop] at h
  | succ fuel ih =>
    intro p stmts h
    simp only [parseLoop] at h
    split_ifs at h with he
    · simp only [PResult.ok.injEq] at h
      subst h
      rfl
    · split at h
      · rename_i st p1 hst
        split at h
        · rename_i rest hrest
          simp only [PResult.ok.injEq] at h
          subst h
          simp [stmtListSpansOk, statement_spans fuel p st p1 hst, ih p1 rest hrest]
        · exact absurd h (by simp)
        · exact absurd h (by simp)
      · exact absurd h (by simp)
      · exact absurd h (by simp)

/-- C7: every `ExprNode` and `StmtNode` produced by a successful parse —
nested children included — has a span whose end line is greater than or
equal to its start line. -/
theorem parse_spans_monotone (s : String) (stmts : List StmtNode)
    (h : parseStr s = .ok stmts) : stmtListSpansOk stmts = true :=
  parseLoop_spans (parseFuel s) (Parser.new (Lex.new s.data)) stmts h

/-- Witness for `parse_spans_monotone` at the input `"foo(1, 2)"`. -/
theorem parse_spans_monotone_witness :
    stmtListSpansOk [StmtNode.mk
      (Stmt.FuncCall (ExprNode.mk
        (Expr.FuncCall (ExprNode.mk (Expr.Ident "foo") ⟨1, 1⟩)
          [ExprNode.mk (Expr.Integer 1) ⟨1, 1⟩, ExprNode.mk (Expr.Integer 2) ⟨1, 1⟩])
        ⟨1, 1⟩))
      ⟨1, 1⟩] = true :=
  parse_spans_monotone "foo(1, 2)" _ rfl


end LuaFront
